import Mathlib

/-!
Verification of the chunking and candidate-retrieval core of the
dana-po-cloud-free pipeline.

Texts are modelled as lists of Unicode code points, since Python strings
are sequences of code points and every text operation used by the code
(slicing, length, concatenation, per-character replacement) is a plain
list operation on code points.

The embedding covers:

- scripts/normalize_and_partition.py : normalize_text
- scripts/chunk_and_index.py : group_elements_by_doc, build_parent_chunks,
  build_child_chunks
- scripts/retrieve_candidates.py : compile_clause_patterns,
  offline_candidate_selection

Randomly generated identifiers (uuid.uuid4) are environment-supplied
randomness and are not modelled; no verified claim concerns their values.
The Python dict is modelled as an association list in key-insertion order,
which is exactly the iteration order guaranteed by Python.  The Python
stable sort (list.sort) is modelled by insertion sort, which realizes the
same stable-sort abstraction: on a total preorder every stable sort
produces the same output list.
-/

/-- A text is a sequence of Unicode code points. -/
abbrev Text := List Char

/-! ## normalize_and_partition.py -/

/-- The zero-width non-joiner character U+200C. -/
def ZWNJ : Char := Char.ofNat 0x200C

/-- The character translation built by str.maketrans from PERSIAN_DIGITS
to ENGLISH_DIGITS: each of the ten Persian-script digits goes to the
ASCII digit of the same value; every other character is unchanged. -/
def translateDigit (c : Char) : Char :=
  if c = '۰' then '0'
  else if c = '۱' then '1'
  else if c = '۲' then '2'
  else if c = '۳' then '3'
  else if c = '۴' then '4'
  else if c = '۵' then '5'
  else if c = '۶' then '6'
  else if c = '۷' then '7'
  else if c = '۸' then '8'
  else if c = '۹' then '9'
  else c

/-- str.replace with a single-character pattern and a single-character
replacement: every occurrence of a is replaced by b. -/
def replaceChar (a b : Char) (t : Text) : Text :=
  t.map (fun c => if c = a then b else c)

/-- normalize_text from normalize_and_partition.py: an empty (falsy) input
returns the empty string; otherwise Persian digits are translated, the two
yeh variants are each replaced by the Farsi yeh, the two kaf variants are
each replaced by the keheh, and finally every ZWNJ is removed. -/
def normalize_text (t : Text) : Text :=
  if t = [] then []
  else
    let t1 := t.map translateDigit
    let t2 := replaceChar 'ي' 'ی' t1
    let t3 := replaceChar 'ی' 'ی' t2
    let t4 := replaceChar 'ك' 'ک' t3
    let t5 := replaceChar 'ک' 'ک' t4
    t5.filter (fun c => c != ZWNJ)

/-- The canonical form of one character as described by the specification
contract 4.1: Persian-script digits map one-to-one to ASCII digits, each
yeh variant folds to the Farsi yeh, each kaf variant folds to the keheh,
and every other character is left unchanged. -/
def spec_canon_char (c : Char) : Char :=
  if c = 'ي' ∨ c = 'ی' then 'ی'
  else if c = 'ك' ∨ c = 'ک' then 'ک'
  else translateDigit c

/-- The specification contract 4.1 as a single pass: ZWNJ characters are
removed, every other character is canonicalized by spec_canon_char. -/
def spec_normalize (t : Text) : Text :=
  t.filterMap (fun c => if c = ZWNJ then none else some (spec_canon_char c))

/-- The composite per-character action of the sequential replacement passes
of normalize_text agrees with the canonical map of the specification. -/
lemma normalize_char_eq (c : Char) :
    ((fun c => if c = 'ک' then 'ک' else c) ∘
      (fun c => if c = 'ك' then 'ک' else c) ∘
      (fun c => if c = 'ی' then 'ی' else c) ∘
      (fun c => if c = 'ي' then 'ی' else c) ∘ translateDigit) c
      = spec_canon_char c := by
  simp only [Function.comp_apply]
  by_cases h0 : c = '۰'
  · subst h0; decide
  by_cases h1 : c = '۱'
  · subst h1; decide
  by_cases h2 : c = '۲'
  · subst h2; decide
  by_cases h3 : c = '۳'
  · subst h3; decide
  by_cases h4 : c = '۴'
  · subst h4; decide
  by_cases h5 : c = '۵'
  · subst h5; decide
  by_cases h6 : c = '۶'
  · subst h6; decide
  by_cases h7 : c = '۷'
  · subst h7; decide
  by_cases h8 : c = '۸'
  · subst h8; decide
  by_cases h9 : c = '۹'
  · subst h9; decide
  by_cases hy1 : c = 'ي'
  · subst hy1; decide
  by_cases hy2 : c = 'ی'
  · subst hy2; decide
  by_cases hk1 : c = 'ك'
  · subst hk1; decide
  by_cases hk2 : c = 'ک'
  · subst hk2; decide
  have hd : translateDigit c = c := by
    unfold translateDigit
    rw [if_neg h0, if_neg h1, if_neg h2, if_neg h3, if_neg h4, if_neg h5,
      if_neg h6, if_neg h7, if_neg h8, if_neg h9]
  unfold spec_canon_char
  simp only [hd, if_neg hy1, if_neg hy2, if_neg hk1, if_neg hk2,
    if_neg (not_or.mpr ⟨hy1, hy2⟩), if_neg (not_or.mpr ⟨hk1, hk2⟩)]

/-- The canonical map sends ZWNJ and only ZWNJ to ZWNJ. -/
lemma spec_canon_char_eq_zwnj (c : Char) : spec_canon_char c = ZWNJ ↔ c = ZWNJ := by
  by_cases h0 : c = '۰'
  · subst h0; decide
  by_cases h1 : c = '۱'
  · subst h1; decide
  by_cases h2 : c = '۲'
  · subst h2; decide
  by_cases h3 : c = '۳'
  · subst h3; decide
  by_cases h4 : c = '۴'
  · subst h4; decide
  by_cases h5 : c = '۵'
  · subst h5; decide
  by_cases h6 : c = '۶'
  · subst h6; decide
  by_cases h7 : c = '۷'
  · subst h7; decide
  by_cases h8 : c = '۸'
  · subst h8; decide
  by_cases h9 : c = '۹'
  · subst h9; decide
  by_cases hy1 : c = 'ي'
  · subst hy1; decide
  by_cases hy2 : c = 'ی'
  · subst hy2; decide
  by_cases hk1 : c = 'ك'
  · subst hk1; decide
  by_cases hk2 : c = 'ک'
  · subst hk2; decide
  have hd : translateDigit c = c := by
    unfold translateDigit
    rw [if_neg h0, if_neg h1, if_neg h2, if_neg h3, if_neg h4, if_neg h5,
      if_neg h6, if_neg h7, if_neg h8, if_neg h9]
  unfold spec_canon_char
  rw [if_neg (not_or.mpr ⟨hy1, hy2⟩), if_neg (not_or.mpr ⟨hk1, hk2⟩), hd]

/-- The canonical map is idempotent on characters. -/
lemma spec_canon_char_idem (c : Char) :
    spec_canon_char (spec_canon_char c) = spec_canon_char c := by
  by_cases h0 : c = '۰'
  · subst h0; decide
  by_cases h1 : c = '۱'
  · subst h1; decide
  by_cases h2 : c = '۲'
  · subst h2; decide
  by_cases h3 : c = '۳'
  · subst h3; decide
  by_cases h4 : c = '۴'
  · subst h4; decide
  by_cases h5 : c = '۵'
  · subst h5; decide
  by_cases h6 : c = '۶'
  · subst h6; decide
  by_cases h7 : c = '۷'
  · subst h7; decide
  by_cases h8 : c = '۸'
  · subst h8; decide
  by_cases h9 : c = '۹'
  · subst h9; decide
  by_cases hy1 : c = 'ي'
  · subst hy1; decide
  by_cases hy2 : c = 'ی'
  · subst hy2; decide
  by_cases hk1 : c = 'ك'
  · subst hk1; decide
  by_cases hk2 : c = 'ک'
  · subst hk2; decide
  have hd : translateDigit c = c := by
    unfold translateDigit
    rw [if_neg h0, if_neg h1, if_neg h2, if_neg h3, if_neg h4, if_neg h5,
      if_neg h6, if_neg h7, if_neg h8, if_neg h9]
  have hcan : spec_canon_char c = c := by
    unfold spec_canon_char
    rw [if_neg (not_or.mpr ⟨hy1, hy2⟩), if_neg (not_or.mpr ⟨hk1, hk2⟩), hd]
  rw [hcan, hcan]

/-- Filtering ZWNJ out of a canonicalized text computes the single-pass
specification form. -/
lemma filter_map_canon (t : Text) :
    (t.map spec_canon_char).filter (fun c => c != ZWNJ) = spec_normalize t := by
  induction t with
  | nil => rfl
  | cons c rest ih =>
    simp only [List.map_cons, List.filter_cons, spec_normalize, List.filterMap_cons]
    by_cases hc : c = ZWNJ
    · have hz : spec_canon_char c = ZWNJ := by
        rw [hc]; decide
      simp only [hz, hc, bne_self_eq_false, if_pos rfl, Bool.false_eq_true, if_false]
      exact ih
    · have hnz : spec_canon_char c ≠ ZWNJ := fun h => hc ((spec_canon_char_eq_zwnj c).mp h)
      simp only [if_neg hc, bne_iff_ne, ne_eq, hnz, not_false_eq_true, if_true]
      rw [ih]
      rfl

/-- normalize_text computes exactly the single-pass canonical form of the
specification contract 4.1. -/
lemma normalize_text_eq_spec (t : Text) : normalize_text t = spec_normalize t := by
  rcases eq_or_ne t [] with rfl | hne
  · rfl
  · unfold normalize_text replaceChar
    rw [if_neg hne]
    simp only [List.map_map]
    have h1 : List.map ((fun c => if c = 'ک' then 'ک' else c) ∘
        (fun c => if c = 'ك' then 'ک' else c) ∘
        (fun c => if c = 'ی' then 'ی' else c) ∘
        (fun c => if c = 'ي' then 'ی' else c) ∘ translateDigit) t
        = List.map spec_canon_char t :=
      List.map_congr_left (fun c _ => normalize_char_eq c)
    rw [h1]
    exact filter_map_canon t

/-- spec_normalize is idempotent. -/
lemma spec_normalize_idem (t : Text) :
    spec_normalize (spec_normalize t) = spec_normalize t := by
  induction t with
  | nil => rfl
  | cons c rest ih =>
    simp only [spec_normalize, List.filterMap_cons] at ih ⊢
    by_cases hc : c = ZWNJ
    · simp only [if_pos hc]
      exact ih
    · have hnz : spec_canon_char c ≠ ZWNJ := fun h => hc ((spec_canon_char_eq_zwnj c).mp h)
      simp only [if_neg hc, List.filterMap_cons, if_neg hnz, spec_canon_char_idem]
      rw [ih]

/-- C8: the text normalizer returns the input with each Persian-script digit
mapped one-to-one to the corresponding ASCII digit, yeh variants folded to
the Farsi yeh, kaf variants folded to the keheh, and every ZWNJ removed
(the single-pass form spec_normalize); empty input yields the empty string.
The function is total by construction. -/
theorem normalize_and_partition.C8_normalize_text_spec (t : Text) :
    normalize_text t = spec_normalize t ∧ normalize_text [] = [] :=
  ⟨normalize_text_eq_spec t, rfl⟩

/-- C9: the text normalizer is idempotent. -/
theorem normalize_and_partition.C9_normalize_text_idempotent (t : Text) :
    normalize_text (normalize_text t) = normalize_text t := by
  rw [normalize_text_eq_spec, normalize_text_eq_spec]
  exact spec_normalize_idem t

/-! ## chunk_and_index.py : data model and chunking -/

/-- One extracted element, as read from the elements JSON.  The doc and
page fields are read with dict.get defaults in the code and are modelled
as optional; the element identifier, category and text are always present
in the JSON produced by the partitioner (external interface, section 6). -/
structure Element where
  doc : Option String
  page : Option Nat
  element_id : String
  category : String
  text : Text
deriving DecidableEq

def PARENT_CHUNK_SIZE : Nat := 1900

def CHILD_CHUNK_SIZE : Nat := 600

/-- int(CHILD_CHUNK_SIZE * (1 - CHILD_CHUNK_OVERLAP)) with the overlap 0.15;
the Python floating-point computation yields exactly 510. -/
def childStep : Nat := 510

/-- The page field of an element, defaulting to 0 when absent. -/
def pageKey (e : Element) : Nat := e.page.getD 0

/-- The doc field of an element, defaulting to "unknown" when absent. -/
def docKey (e : Element) : String := e.doc.getD "unknown"

/-- Lexicographic code-point comparison of character sequences: the order
Python uses to compare strings. -/
def strLeb : List Char → List Char → Bool
  | [], _ => true
  | _ :: _, [] => false
  | a :: as, b :: bs => if a < b then true else if a = b then strLeb as bs else false

lemma strLeb_total : ∀ x y, strLeb x y = true ∨ strLeb y x = true
  | [], _ => Or.inl rfl
  | _ :: _, [] => Or.inr rfl
  | a :: as, b :: bs => by
    rcases lt_trichotomy a b with h | h | h
    · left
      simp [strLeb, h]
    · subst h
      rcases strLeb_total as bs with ih | ih
      · left
        simp [strLeb, ih]
      · right
        simp [strLeb, ih]
    · right
      simp [strLeb, h]

lemma strLeb_trans : ∀ x y z, strLeb x y = true → strLeb y z = true → strLeb x z = true
  | [], _, _ => fun _ _ => rfl
  | a :: as, [], _ => fun h _ => by simp [strLeb] at h
  | _ :: _, _ :: _, [] => fun _ h => by simp [strLeb] at h
  | a :: as, b :: bs, c :: cs => by
    intro h1 h2
    by_cases hab : a < b
    · by_cases hbc : b < c
      · simp [strLeb, hab.trans hbc]
      · by_cases hbc2 : b = c
        · subst hbc2
          simp [strLeb, hab]
        · simp [strLeb, hbc, hbc2] at h2
    · by_cases hab2 : a = b
      · subst hab2
        simp only [strLeb, lt_self_iff_false, if_false, if_pos rfl] at h1
        by_cases hac : a < c
        · simp [strLeb, hac]
        · by_cases hac2 : a = c
          · subst hac2
            simp only [strLeb, lt_self_iff_false, if_false, if_pos rfl] at h2 ⊢
            exact strLeb_trans as bs cs h1 h2
          · simp [strLeb, hac, hac2] at h2
      · simp [strLeb, hab, hab2] at h1

lemma strLeb_antisymm : ∀ x y, strLeb x y = true → strLeb y x = true → x = y
  | [], [] => fun _ _ => rfl
  | [], _ :: _ => fun _ h => by simp [strLeb] at h
  | _ :: _, [] => fun h _ => by simp [strLeb] at h
  | a :: as, b :: bs => by
    intro h1 h2
    by_cases hab : a < b
    · have hba : ¬ b < a := lt_asymm hab
      have hbaeq : ¬ b = a := fun h => absurd (h ▸ hab) (lt_irrefl a)
      simp [strLeb, hba, hbaeq] at h2
    · by_cases hab2 : a = b
      · subst hab2
        simp only [strLeb, lt_self_iff_false, if_false, if_pos rfl] at h1 h2
        rw [strLeb_antisymm as bs h1 h2]
      · simp [strLeb, hab, hab2] at h1

/-- The per-group ordering realized by the sort key
(page with default 0, element identifier): page ascending, then element
identifier ascending in the code-point order Python uses for strings. -/
def keyLE (a b : Element) : Prop :=
  pageKey a < pageKey b ∨
    (pageKey a = pageKey b ∧ strLeb a.element_id.data b.element_id.data = true)

instance : DecidableRel keyLE := fun a b => by
  unfold keyLE; infer_instance

instance : IsTotal Element keyLE where
  total a b := by
    unfold keyLE
    rcases Nat.lt_trichotomy (pageKey a) (pageKey b) with h | h | h
    · exact Or.inl (Or.inl h)
    · rcases strLeb_total a.element_id.data b.element_id.data with hs | hs
      · exact Or.inl (Or.inr ⟨h, hs⟩)
      · exact Or.inr (Or.inr ⟨h.symm, hs⟩)
    · exact Or.inr (Or.inl h)

instance : IsTrans Element keyLE where
  trans a b c hab hbc := by
    unfold keyLE at *
    rcases hab with h1 | ⟨h1, h1s⟩ <;> rcases hbc with h2 | ⟨h2, h2s⟩
    · exact Or.inl (h1.trans h2)
    · exact Or.inl (h2 ▸ h1)
    · exact Or.inl (h1 ▸ h2)
    · exact Or.inr ⟨h1.trans h2, strLeb_trans _ _ _ h1s h2s⟩

/-- grouped.setdefault(doc, []).append(el): append el to the group keyed k,
creating the group at the end when the key is new (a Python dict preserves
key insertion order). -/
def insertGrouped (g : List (String × List Element)) (k : String) (el : Element) :
    List (String × List Element) :=
  match g with
  | [] => [(k, [el])]
  | (k0, v) :: rest =>
      if k0 = k then (k0, v ++ [el]) :: rest
      else (k0, v) :: insertGrouped rest k el

/-- group_elements_by_doc: group elements by their originating document in
key-insertion order, then sort each group by (page, element_id) with the
stable sort. -/
def group_elements_by_doc (elements : List Element) : List (String × List Element) :=
  (elements.foldl (fun g el => insertGrouped g (docKey el) el) []).map
    (fun p => (p.1, p.2.insertionSort keyLE))

/-- Lookup of one group by document name; the empty list when the key is
absent. -/
def lookupGroup (g : List (String × List Element)) (d : String) : List Element :=
  match g with
  | [] => []
  | (k, v) :: rest => if k = d then v else lookupGroup rest d

/-- One entry of the meta_list accumulated by build_parent_chunks:
a pair of the page (default 0) and the element identifier. -/
structure ParentMeta where
  page : Nat
  element_id : String
deriving DecidableEq

def mkMeta (el : Element) : ParentMeta := ⟨pageKey el, el.element_id⟩

/-- A parent chunk.  The uuid4 parent identifier is environment randomness
and is not modelled. -/
structure Parent where
  doc : String
  page : Nat
  element_ids : List String
  text : Text
deriving DecidableEq

/-- The separator-joined buffer text, "\n".join(buffer). -/
def joinNL : List Text → Text
  | [] => []
  | [t] => t
  | t :: rest => t ++ '\n' :: joinNL rest

/-- Creation of one parent chunk from the accumulated buffer and meta list:
page is the page of the first buffered element (0 for an empty meta list), the
element-id list collects the buffered identifiers, the text joins the
buffered texts with newlines. -/
def flushParent (doc : String) (buffer : List Text) (meta : List ParentMeta) : Parent :=
  { doc := doc
    page := (meta.head?.map ParentMeta.page).getD 0
    element_ids := meta.map ParentMeta.element_id
    text := joinNL buffer }

/-- The per-document accumulation loop of build_parent_chunks: before
appending an element, when the buffer is non-empty and the accumulated
character count plus the incoming text length exceeds PARENT_CHUNK_SIZE,
the buffer is flushed; the element is then appended.  A final non-empty
buffer is flushed after the loop. -/
def build_parent_loop (doc : String) (buffer : List Text) (meta : List ParentMeta)
    (current_length : Nat) : List Element → List Parent
  | [] => if buffer.isEmpty then [] else [flushParent doc buffer meta]
  | el :: rest =>
      if ¬ buffer.isEmpty ∧ current_length + el.text.length > PARENT_CHUNK_SIZE then
        flushParent doc buffer meta ::
          build_parent_loop doc [el.text] [mkMeta el] el.text.length rest
      else
        build_parent_loop doc (buffer ++ [el.text]) (meta ++ [mkMeta el])
          (current_length + el.text.length) rest

/-- build_parent_chunks: the parent chunks of every document group, in
group order. -/
def build_parent_chunks (grouped : List (String × List Element)) : List Parent :=
  grouped.flatMap (fun p => build_parent_loop p.1 [] [] 0 p.2)

/-- The sliding-window loop of build_child_chunks over one parent text:
while pos < len(text), emit text[pos : pos + CHILD_CHUNK_SIZE] and advance
pos by the step. -/
def build_child_loop (text : Text) (pos : Nat) : List Text :=
  if pos < text.length then
    (text.drop pos).take CHILD_CHUNK_SIZE :: build_child_loop text (pos + childStep)
  else []
termination_by text.length - pos
decreasing_by
  simp only [childStep]
  omega

/-- A child chunk.  The uuid4 child identifier and the parent identifier
back-reference are environment randomness and are not modelled; the claims
concern the doc and text fields. -/
structure Child where
  doc : String
  text : Text
deriving DecidableEq

/-- build_child_chunks: every parent text cut by the sliding-window loop. -/
def build_child_chunks (parents : List Parent) : List Child :=
  parents.flatMap (fun p => (build_child_loop p.text 0).map (fun ct => ⟨p.doc, ct⟩))
/-! ## Child chunking: round trip and window count -/

/-- The de-overlap reconstruction described by claim C3: keep the first
child chunk whole and strip the leading CHILD_CHUNK_SIZE - childStep = 90
characters from every later child chunk, then concatenate. -/
def deOverlap (chunks : List Text) : Text :=
  match chunks with
  | [] => []
  | c :: rest => c ++ (rest.map (fun x => x.drop (CHILD_CHUNK_SIZE - childStep))).flatten

/-- Stripping the overlap region from every window starting at pos
reconstructs the text from position pos + 90 on. -/
lemma dropAll_build_child (t : Text) (pos : Nat) :
    ((build_child_loop t pos).map
        (fun x => x.drop (CHILD_CHUNK_SIZE - childStep))).flatten
      = t.drop (pos + (CHILD_CHUNK_SIZE - childStep)) := by
  rw [build_child_loop]
  split
  · rename_i h
    rw [List.map_cons, List.flatten_cons, dropAll_build_child t (pos + childStep)]
    have e1 : CHILD_CHUNK_SIZE - (CHILD_CHUNK_SIZE - childStep) = childStep := by decide
    have e2 : pos + childStep + (CHILD_CHUNK_SIZE - childStep)
        = pos + (CHILD_CHUNK_SIZE - childStep) + childStep := by omega
    rw [List.drop_take, List.drop_drop, e1, e2, List.drop_take_append_drop]
  · rename_i h
    rw [List.drop_eq_nil_of_le (by omega)]
    simp
termination_by t.length - pos
decreasing_by
  simp only [childStep]
  omega

/-- C3: concatenating the first child chunk with every later child chunk
stripped of its leading 90-character overlap region reconstructs the
parent text exactly; an empty parent text yields zero child chunks. -/
theorem chunk_and_index.C3_child_roundtrip (t : Text) :
    deOverlap (build_child_loop t 0) = t ∧ (t = [] → build_child_loop t 0 = []) := by
  constructor
  · rcases eq_or_ne t [] with rfl | hne
    · rw [build_child_loop]
      simp [deOverlap]
    · rw [build_child_loop, if_pos (List.length_pos.mpr hne)]
      simp only [deOverlap, Nat.zero_add]
      rw [dropAll_build_child t childStep]
      have e3 : childStep + (CHILD_CHUNK_SIZE - childStep) = CHILD_CHUNK_SIZE := by decide
      rw [List.drop_zero, e3, List.take_append_drop]
  · intro h
    subst h
    rw [build_child_loop]
    simp

/-- C4 fails as stated: a 511-character parent text is shorter than the
600-character child width yet produces two child chunks, because the scan
advances by 510 and 510 < 511; moreover the empty text, also shorter than
the child width, produces zero child chunks rather than one. -/
theorem chunk_and_index.C4_counterexample :
    (List.replicate 511 'a').length < CHILD_CHUNK_SIZE ∧
    (build_child_loop (List.replicate 511 'a') 0).length = 2 ∧
    build_child_loop ([] : Text) 0 = [] := by
  refine ⟨?_, ?_, ?_⟩
  · simp only [List.length_replicate, CHILD_CHUNK_SIZE]
    omega
  · rw [build_child_loop, build_child_loop, build_child_loop]
    simp only [childStep, List.length_replicate]
    norm_num
  · rw [build_child_loop, if_neg (by simp)]

/-- C4 amended: for every nonempty parent text of length at most the step
size 510, child chunking produces exactly one child chunk whose text is
the full parent text. -/
theorem chunk_and_index.C4_single_window (t : Text)
    (h1 : 0 < t.length) (h2 : t.length ≤ childStep) :
    build_child_loop t 0 = [t] := by
  rw [build_child_loop, if_pos h1, build_child_loop,
    if_neg (by simp only [childStep] at h2 ⊢; omega)]
  rw [List.drop_zero,
    List.take_of_length_le (by simp only [childStep] at h2; simp only [CHILD_CHUNK_SIZE]; omega)]

/-- Witness for C4 amended at the one-character text. -/
theorem chunk_and_index.C4_single_window_witness :
    0 < (['a'] : Text).length ∧ (['a'] : Text).length ≤ childStep ∧
      build_child_loop ['a'] 0 = [['a']] :=
  ⟨by decide, by decide, chunk_and_index.C4_single_window ['a'] (by decide) (by decide)⟩

/-! ## Parent chunking: length bound and element partition -/

/-- Length of the newline-joined buffer: the summed text lengths plus one
separator between consecutive buffered texts. -/
lemma joinNL_length : ∀ (buf : List Text), buf ≠ [] →
    (joinNL buf).length = (buf.map List.length).sum + (buf.length - 1)
  | [], h => absurd rfl h
  | [t], _ => by simp [joinNL]
  | t :: t2 :: rest, _ => by
    have ih := joinNL_length (t2 :: rest) (by simp)
    simp only [joinNL, List.length_append, List.length_cons, ih, List.map_cons,
      List.sum_cons]
    omega

/-- Invariant of the parent accumulation loop: whenever the running length
is the summed buffer length, the meta list tracks the buffer, and every
buffer holding at least two elements has summed length within the
threshold, every produced parent with at least two element identifiers has
text length at most the threshold plus the number of newline separators. -/
lemma build_parent_loop_length_bound (doc : String) :
    ∀ (els : List Element) (buffer : List Text) (meta : List ParentMeta)
      (curLen : Nat),
      curLen = (buffer.map List.length).sum →
      meta.length = buffer.length →
      (2 ≤ buffer.length → curLen ≤ PARENT_CHUNK_SIZE) →
      ∀ p ∈ build_parent_loop doc buffer meta curLen els,
        2 ≤ p.element_ids.length →
        p.text.length ≤ PARENT_CHUNK_SIZE + (p.element_ids.length - 1)
  | [], buffer, meta, curLen => by
    intro hsum hlen hbound p hp hids
    rw [build_parent_loop] at hp
    by_cases hb : buffer.isEmpty
    · simp [hb] at hp
    · simp only [hb, Bool.false_eq_true, if_false, List.mem_singleton] at hp
      subst hp
      simp only [flushParent, List.length_map] at hids ⊢
      rw [joinNL_length buffer (by simpa [List.isEmpty_iff] using hb)]
      have hb2 : 2 ≤ buffer.length := hlen ▸ hids
      have := hbound hb2
      omega
  | el :: rest, buffer, meta, curLen => by
    intro hsum hlen hbound p hp hids
    rw [build_parent_loop] at hp
    split at hp
    · rename_i hcond
      rcases List.mem_cons.mp hp with rfl | hp2
      · simp only [flushParent, List.length_map] at hids ⊢
        have hbne : buffer ≠ [] := by
          intro h
          exact hcond.1 (by simp [h])
        rw [joinNL_length buffer hbne]
        have hb2 : 2 ≤ buffer.length := hlen ▸ hids
        have := hbound hb2
        omega
      · exact build_parent_loop_length_bound doc rest [el.text] [mkMeta el]
          el.text.length (by simp) (by simp) (by intro h; simp at h) p hp2 hids
    · rename_i hcond
      refine build_parent_loop_length_bound doc rest (buffer ++ [el.text])
        (meta ++ [mkMeta el]) (curLen + el.text.length) ?_ ?_ ?_ p hp hids
      · simp [hsum]
      · simp [hlen]
      · intro h2
        by_cases hb : buffer.isEmpty
        · have hbe : buffer = [] := List.isEmpty_iff.mp hb
          subst hbe
          simp at h2
        · have hle : ¬ curLen + el.text.length > PARENT_CHUNK_SIZE := by
            intro hgt
            exact hcond ⟨by simpa using hb, hgt⟩
          omega

/-- C1 amended: every parent chunk assembled from at least two elements
has text length at most PARENT_CHUNK_SIZE plus the number of newline
separators (element count minus one); a single-element chunk may exceed
the threshold. -/
theorem chunk_and_index.C1_parent_length_bound
    (grouped : List (String × List Element)) (p : Parent)
    (hp : p ∈ build_parent_chunks grouped) (hids : 2 ≤ p.element_ids.length) :
    p.text.length ≤ PARENT_CHUNK_SIZE + (p.element_ids.length - 1) := by
  obtain ⟨pr, _, hmem⟩ := List.mem_flatMap.mp hp
  exact build_parent_loop_length_bound pr.1 pr.2 [] [] 0 rfl rfl
    (by intro h; simp at h) p hmem hids

def c1e1 : Element :=
  { doc := some "a", page := some 1, element_id := "e1", category := "t",
    text := List.replicate 950 'X' }

def c1e2 : Element :=
  { doc := some "a", page := some 1, element_id := "e2", category := "t",
    text := List.replicate 950 'Y' }

set_option maxRecDepth 8000 in
/-- C1 fails as stated: the document group holding two 950-character
elements passes the overflow check (950 + 950 = 1900 is not greater than
1900), so both elements are flushed together, and the newline separator
makes the parent text 1901 characters long even though the chunk is
composed of two elements, not one. -/
theorem chunk_and_index.C1_counterexample :
    (build_parent_chunks [("a", [c1e1, c1e2])]).map
      (fun p => (p.element_ids.length, p.text.length)) = [(2, 1901)] := by
  simp [build_parent_chunks, build_parent_loop, flushParent, joinNL, mkMeta,
    c1e1, c1e2, PARENT_CHUNK_SIZE, pageKey]

set_option maxRecDepth 8000 in
/-- Witness for C1 amended: the two-element parent chunk of the
counterexample group meets the corrected bound 1900 + 1. -/
theorem chunk_and_index.C1_parent_length_bound_witness :
    (⟨"a", 1, ["e1", "e2"],
        List.replicate 950 'X' ++ '\n' :: List.replicate 950 'Y'⟩ : Parent)
      ∈ build_parent_chunks [("a", [c1e1, c1e2])] ∧
    (2 ≤ (["e1", "e2"] : List String).length ∧
      (List.replicate 950 'X' ++ '\n' :: List.replicate 950 'Y' : Text).length
        ≤ PARENT_CHUNK_SIZE + ((["e1", "e2"] : List String).length - 1)) := by
  have hmem : (⟨"a", 1, ["e1", "e2"],
      List.replicate 950 'X' ++ '\n' :: List.replicate 950 'Y'⟩ : Parent)
      ∈ build_parent_chunks [("a", [c1e1, c1e2])] := by
    simp [build_parent_chunks, build_parent_loop, flushParent, joinNL, mkMeta,
      c1e1, c1e2, PARENT_CHUNK_SIZE, pageKey]
  exact ⟨hmem, by simp,
    chunk_and_index.C1_parent_length_bound [("a", [c1e1, c1e2])] _ hmem (by simp)⟩

/-- The accumulation loop emits every buffered and every remaining element
identifier exactly once, in order. -/
lemma build_parent_loop_ids (doc : String) :
    ∀ (els : List Element) (buffer : List Text) (meta : List ParentMeta)
      (curLen : Nat),
      (buffer.isEmpty = true → meta = []) →
      (build_parent_loop doc buffer meta curLen els).flatMap Parent.element_ids
        = meta.map ParentMeta.element_id ++ els.map Element.element_id
  | [], buffer, meta, curLen => by
    intro hbm
    rw [build_parent_loop]
    by_cases hb : buffer.isEmpty
    · simp [hb, hbm hb]
    · simp [hb, flushParent]
  | el :: rest, buffer, meta, curLen => by
    intro hbm
    rw [build_parent_loop]
    split
    · rename_i hcond
      rw [List.flatMap_cons,
        build_parent_loop_ids doc rest [el.text] [mkMeta el] el.text.length (by simp)]
      simp [flushParent, mkMeta]
    · rename_i hcond
      rw [build_parent_loop_ids doc rest (buffer ++ [el.text]) (meta ++ [mkMeta el])
        (curLen + el.text.length) (by simp)]
      simp [mkMeta]

/-- C10: parent chunking partitions each document group exactly.  For a
single group, concatenating the element-id lists of the produced parent
chunks in production order yields precisely the element sequence of the group;
consequently over the whole grouped input, build_parent_chunks emits every
identifier of every element exactly once, in group order then within-group
order. -/
theorem chunk_and_index.C10_parent_partition :
    (∀ (doc : String) (els : List Element),
        (build_parent_loop doc [] [] 0 els).flatMap Parent.element_ids
          = els.map Element.element_id) ∧
    ∀ (grouped : List (String × List Element)),
        (build_parent_chunks grouped).flatMap Parent.element_ids
          = grouped.flatMap (fun pr => pr.2.map Element.element_id) := by
  constructor
  · intro doc els
    rw [build_parent_loop_ids doc els [] [] 0 (fun _ => rfl)]
    rfl
  · intro grouped
    induction grouped with
    | nil => rfl
    | cons pr rest ih =>
      simp only [build_parent_chunks, List.flatMap_cons, List.flatMap_append] at ih ⊢
      rw [ih, build_parent_loop_ids pr.1 pr.2 [] [] 0 (fun _ => rfl)]
      rfl

/-! ## Grouping: lookup characterization and determinism -/

/-- Inserting into the grouped mapping appends the element to the group of
its key and leaves every other group unchanged. -/
lemma lookupGroup_insertGrouped :
    ∀ (g : List (String × List Element)) (k : String) (el : Element) (d : String),
      lookupGroup (insertGrouped g k el) d
        = lookupGroup g d ++ (if k = d then [el] else [])
  | [], k, el, d => by
    by_cases h : k = d <;> simp [insertGrouped, lookupGroup, h]
  | (k0, v) :: rest, k, el, d => by
    by_cases h : k0 = k
    · subst h
      by_cases hd : k0 = d <;> simp [insertGrouped, lookupGroup, hd]
    · by_cases hd : k0 = d
      · subst hd
        have hkd : ¬ k = k0 := fun hh => h hh.symm
        simp [insertGrouped, lookupGroup, h, hkd]
      · simp [insertGrouped, lookupGroup, h, hd,
          lookupGroup_insertGrouped rest k el d]

/-- The grouping fold keyed by docKey collects, for every document name,
exactly the elements with that key, in input order. -/
lemma lookupGroup_foldl :
    ∀ (l : List Element) (g : List (String × List Element)) (d : String),
      lookupGroup (l.foldl (fun g el => insertGrouped g (docKey el) el) g) d
        = lookupGroup g d ++ l.filter (fun e => docKey e == d)
  | [], g, d => by simp
  | el :: rest, g, d => by
    rw [List.foldl_cons, lookupGroup_foldl rest _ d, lookupGroup_insertGrouped]
    by_cases h : docKey el = d
    · simp [List.filter_cons, h]
    · simp [List.filter_cons, h]

/-- Per-group sorting commutes with group lookup. -/
lemma lookupGroup_map_sort :
    ∀ (g : List (String × List Element)) (d : String),
      lookupGroup (g.map (fun p => (p.1, p.2.insertionSort keyLE))) d
        = (lookupGroup g d).insertionSort keyLE
  | [], d => rfl
  | (k, v) :: rest, d => by
    by_cases h : k = d <;>
      simp [lookupGroup, h, lookupGroup_map_sort rest d]

/-- The group of document d after grouping is the stable sort of the
elements whose docKey is d, in input order. -/
lemma lookupGroup_group (l : List Element) (d : String) :
    lookupGroup (group_elements_by_doc l) d
      = (l.filter (fun e => docKey e == d)).insertionSort keyLE := by
  unfold group_elements_by_doc
  rw [lookupGroup_map_sort, lookupGroup_foldl]
  rfl

/-- Two sorted lists that are permutations of each other coincide, as soon
as the ordering is antisymmetric on the elements involved. -/
lemma sorted_perm_eq {α : Type} (R : α → α → Prop) :
    ∀ (l1 l2 : List α), l1.Perm l2 → l1.Pairwise R → l2.Pairwise R →
      (∀ x ∈ l1, ∀ y ∈ l1, R x y → R y x → x = y) → l1 = l2
  | [], l2, hp, _, _, _ => (List.Perm.eq_nil hp.symm).symm
  | x :: t1, l2, hp, h1, h2, ha => by
    have hx2 : x ∈ l2 := hp.mem_iff.mp (List.mem_cons_self x t1)
    cases l2 with
    | nil => simp at hx2
    | cons y t2 =>
      by_cases hxy : x = y
      · subst hxy
        have ht : t1 = t2 :=
          sorted_perm_eq R t1 t2 hp.cons_inv (List.pairwise_cons.mp h1).2
            (List.pairwise_cons.mp h2).2
            (fun a hat1 b hbt1 hr1 hr2 =>
              ha a (List.mem_cons_of_mem x hat1) b (List.mem_cons_of_mem x hbt1) hr1 hr2)
        rw [ht]
      · have hxt2 : x ∈ t2 := by
          rcases List.mem_cons.mp hx2 with h | h
          · exact absurd h hxy
          · exact h
        have hyx : R y x := (List.pairwise_cons.mp h2).1 x hxt2
        have hy1 : y ∈ x :: t1 := hp.mem_iff.mpr (List.mem_cons_self y t2)
        have hyt1 : y ∈ t1 := by
          rcases List.mem_cons.mp hy1 with h | h
          · exact absurd h.symm hxy
          · exact h
        have hxyr : R x y := (List.pairwise_cons.mp h1).1 y hyt1
        exact absurd (ha x (List.mem_cons_self x t1) y (List.mem_cons_of_mem x hyt1)
          hxyr hyx) hxy

def c5a : Element :=
  { doc := some "a", page := some 1, element_id := "ea", category := "t",
    text := ['x'] }

def c5b : Element :=
  { doc := some "b", page := some 1, element_id := "eb", category := "t",
    text := ['y'] }

/-- C5 fails as stated: the group ORDER of the grouped mapping follows the
first occurrence of each document in the input (Python dict key insertion
order), so swapping two elements of different documents reverses the group
order even though each per-group element list is unchanged. -/
theorem chunk_and_index.C5_counterexample :
    ([c5a, c5b].Perm [c5b, c5a]) ∧
    (group_elements_by_doc [c5a, c5b]).map Prod.fst
      ≠ (group_elements_by_doc [c5b, c5a]).map Prod.fst :=
  ⟨List.Perm.swap c5b c5a [], by decide⟩

/-- C5 amended: per-group ordering is permutation-invariant.  For every
two permutations of the same element list in which distinct same-document
elements never share the sort key (page, element_id), the sorted group of
every document is identical; the group order itself follows first-occurrence
order and may differ. -/
theorem chunk_and_index.C5_group_sort_deterministic
    (l1 l2 : List Element) (d : String) (hperm : l1.Perm l2)
    (hkeys : ∀ x ∈ l1, ∀ y ∈ l1, docKey x = docKey y → pageKey x = pageKey y →
      x.element_id = y.element_id → x = y) :
    lookupGroup (group_elements_by_doc l1) d
      = lookupGroup (group_elements_by_doc l2) d := by
  rw [lookupGroup_group, lookupGroup_group]
  have hpf : (l1.filter (fun e => docKey e == d)).Perm
      (l2.filter (fun e => docKey e == d)) := hperm.filter _
  refine sorted_perm_eq keyLE _ _ ?_ ?_ ?_ ?_
  · exact ((List.perm_insertionSort keyLE _).trans hpf).trans
      (List.perm_insertionSort keyLE _).symm
  · exact List.sorted_insertionSort keyLE _
  · exact List.sorted_insertionSort keyLE _
  · intro x hx y hy hxy hyx
    have hx1 : x ∈ l1 ∧ docKey x == d := by
      exact List.mem_filter.mp ((List.mem_insertionSort keyLE).mp hx)
    have hy1 : y ∈ l1 ∧ docKey y == d := by
      exact List.mem_filter.mp ((List.mem_insertionSort keyLE).mp hy)
    have hdocs : docKey x = docKey y := by
      have h1 := eq_of_beq hx1.2
      have h2 := eq_of_beq hy1.2
      rw [h1, h2]
    have hpage : pageKey x = pageKey y := by
      rcases hxy with h | ⟨h, _⟩
      · rcases hyx with h2 | ⟨h2, _⟩
        · omega
        · omega
      · exact h
    have hid : x.element_id = y.element_id := by
      rcases hxy with h | ⟨_, hs1⟩
      · omega
      rcases hyx with h | ⟨_, hs2⟩
      · omega
      exact String.ext (strLeb_antisymm _ _ hs1 hs2)
    exact hkeys x hx1.1 y hy1.1 hdocs hpage hid

/-- Witness for C5 amended at a two-element list and its swap. -/
theorem chunk_and_index.C5_group_sort_deterministic_witness :
    lookupGroup (group_elements_by_doc [c5a, c5b]) "a"
      = lookupGroup (group_elements_by_doc [c5b, c5a]) "a" :=
  chunk_and_index.C5_group_sort_deterministic [c5a, c5b] [c5b, c5a] "a"
    (List.Perm.swap c5b c5a []) (by decide)

/-- The element with a missing page materialized as the explicit page 0:
the value the dict-get default substitutes. -/
def withDefaultPage (el : Element) : Element := { el with page := some 0 }

/-- Every parent the accumulation loop produces takes its representative
page from its first constituent element: from any reachable state whose
meta list is the mkMeta image of the already buffered source elements,
each flushed parent heads its element-id list with the identifier of some
buffered or remaining element and carries exactly the page key of that
element. -/
lemma build_parent_loop_page_first (doc : String) :
    ∀ (els : List Element) (buffer : List Text) (src : List Element)
      (curLen : Nat),
      src.length = buffer.length →
      ∀ p ∈ build_parent_loop doc buffer (src.map mkMeta) curLen els,
        ∃ e, (e ∈ src ∨ e ∈ els) ∧ p.element_ids.head? = some e.element_id ∧
          p.page = pageKey e
  | [], buffer, src, curLen => by
    intro hlen p hp
    rw [build_parent_loop] at hp
    split at hp
    · simp at hp
    · rename_i hb
      rw [List.mem_singleton] at hp
      subst hp
      cases src with
      | nil =>
        have hbe : buffer = [] := List.length_eq_zero.mp hlen.symm
        subst hbe
        simp at hb
      | cons e srest =>
        refine ⟨e, Or.inl (List.mem_cons_self e srest), ?_, ?_⟩
        · simp [flushParent, mkMeta]
        · simp [flushParent, mkMeta]
  | el :: rest, buffer, src, curLen => by
    intro hlen p hp
    rw [build_parent_loop] at hp
    split at hp
    · rename_i hcond
      rcases List.mem_cons.mp hp with rfl | hp2
      · cases src with
        | nil =>
          have hbe : buffer = [] := List.length_eq_zero.mp hlen.symm
          subst hbe
          exact absurd (by simp) hcond.1
        | cons e srest =>
          refine ⟨e, Or.inl (List.mem_cons_self e srest), ?_, ?_⟩
          · simp [flushParent, mkMeta]
          · simp [flushParent, mkMeta]
      · obtain ⟨e, hor, hh, hpg⟩ := build_parent_loop_page_first doc rest
          [el.text] [el] el.text.length (by simp) p hp2
        refine ⟨e, Or.inr ?_, hh, hpg⟩
        rcases hor with h | h
        · rw [List.mem_singleton] at h
          subst h
          exact List.mem_cons_self e rest
        · exact List.mem_cons_of_mem el h
    · have hmeq : src.map mkMeta ++ [mkMeta el] = (src ++ [el]).map mkMeta := by
        simp
      rw [hmeq] at hp
      obtain ⟨e, hor, hh, hpg⟩ := build_parent_loop_page_first doc rest
        (buffer ++ [el.text]) (src ++ [el]) (curLen + el.text.length)
        (by simp [hlen]) p hp
      refine ⟨e, ?_, hh, hpg⟩
      rcases hor with h | h
      · rcases List.mem_append.mp h with h2 | h2
        · exact Or.inl h2
        · rw [List.mem_singleton] at h2
          subst h2
          exact Or.inr (List.mem_cons_self e rest)
      · exact Or.inr (List.mem_cons_of_mem el h)

/-- C7: an element lacking the doc field is grouped under the sentinel
document name "unknown"; an element lacking the page field gets the sort
key page 0 and the ordering the per-group sort uses compares it exactly as
the same element with page 0 materialized; and in any grouped input, every
produced parent chunk takes its representative page from its first
constituent element, so the page is 0 whenever that element lacks one.
All three functions are total, so neither default can fail. -/
theorem chunk_and_index.C7_missing_field_defaults :
    (∀ (l : List Element) (el : Element), el ∈ l → el.doc = none →
        el ∈ lookupGroup (group_elements_by_doc l) "unknown") ∧
    (∀ el : Element, el.page = none →
        pageKey el = 0 ∧
        ∀ e2 : Element, (keyLE el e2 ↔ keyLE (withDefaultPage el) e2) ∧
          (keyLE e2 el ↔ keyLE e2 (withDefaultPage el))) ∧
    (∀ (grouped : List (String × List Element)) (p : Parent),
        p ∈ build_parent_chunks grouped →
        ∃ pr ∈ grouped, ∃ e ∈ pr.2,
          p.element_ids.head? = some e.element_id ∧ p.page = pageKey e ∧
          (e.page = none → p.page = 0)) := by
  refine ⟨?_, ?_, ?_⟩
  · intro l el hmem hdoc
    rw [lookupGroup_group]
    rw [List.mem_insertionSort keyLE]
    rw [List.mem_filter]
    exact ⟨hmem, by simp [docKey, hdoc]⟩
  · intro el hpage
    have hpk : pageKey el = 0 := by simp [pageKey, hpage]
    have hpk2 : pageKey (withDefaultPage el) = 0 := rfl
    refine ⟨hpk, fun e2 => ⟨?_, ?_⟩⟩
    · unfold keyLE
      rw [hpk, hpk2]
      exact Iff.rfl
    · unfold keyLE
      rw [hpk, hpk2]
      exact Iff.rfl
  · intro grouped p hp
    obtain ⟨pr, hpr, hmem⟩ := List.mem_flatMap.mp hp
    obtain ⟨e, hor, hh, hpg⟩ :=
      build_parent_loop_page_first pr.1 pr.2 [] [] 0 rfl p hmem
    rcases hor with h | h
    · simp at h
    · refine ⟨pr, hpr, e, h, hh, hpg, fun hpn => ?_⟩
      rw [hpg]
      simp [pageKey, hpn]

def c7e : Element :=
  { doc := none, page := none, element_id := "e0", category := "t",
    text := ['z'] }

def c7f : Element :=
  { doc := some "a", page := some 1, element_id := "e9", category := "t",
    text := ['w'] }

/-- Witness for C7: a docless, pageless element lands in the group named
unknown, its sort key page is 0 and it compares like the page-0 element
against a concrete second element, and the parent chunk built from it
takes page 0 from it as first constituent. -/
theorem chunk_and_index.C7_missing_field_defaults_witness :
    c7e ∈ lookupGroup (group_elements_by_doc [c7e]) "unknown" ∧
    (pageKey c7e = 0 ∧
      ((keyLE c7e c7f ↔ keyLE (withDefaultPage c7e) c7f) ∧
        (keyLE c7f c7e ↔ keyLE c7f (withDefaultPage c7e)))) ∧
    ∃ pr ∈ [("unknown", [c7e])], ∃ e ∈ pr.2,
      (⟨"unknown", 0, ["e0"], ['z']⟩ : Parent).element_ids.head?
          = some e.element_id ∧
      (⟨"unknown", 0, ["e0"], ['z']⟩ : Parent).page = pageKey e ∧
      (e.page = none → (⟨"unknown", 0, ["e0"], ['z']⟩ : Parent).page = 0) :=
  ⟨chunk_and_index.C7_missing_field_defaults.1 [c7e] c7e
      (List.mem_singleton_self c7e) rfl,
    ⟨(chunk_and_index.C7_missing_field_defaults.2.1 c7e rfl).1,
      (chunk_and_index.C7_missing_field_defaults.2.1 c7e rfl).2 c7f⟩,
    chunk_and_index.C7_missing_field_defaults.2.2 [("unknown", [c7e])]
      (⟨"unknown", 0, ["e0"], ['z']⟩ : Parent) (by decide)⟩

/-! ## retrieve_candidates.py -/

/-- A compiled regular expression, modelled by its observable matching
behavior: regex.search(text) either finds a match somewhere in the text or
does not.  The regex engine itself is Python library code, outside this
repository. -/
structure Pattern where
  search : Text → Bool

/-- One clause of the requirements JSON: an identifier and its regex
locator strings (the code reads the field with a dict get whose default is
the empty list, so the field is modelled as a plain list). -/
structure Clause where
  id : String
  regex_locators : List String

/-- The requirements JSON object; the code reads the clauses field with a
dict get defaulting to the empty list. -/
structure Requirements where
  clauses : List Clause

/-- The locator list comprehension of compile_clause_patterns: locators
are compiled left to right; the first invalid pattern raises, which the
Option models by none, and no partial list survives.  The compiling
function compileRe models re.compile: none exactly on a syntactically
invalid regular expression. -/
def compileList (compileRe : String → Option Pattern) :
    List String → Option (List Pattern)
  | [] => some []
  | r :: rest =>
      match compileRe r with
      | none => none
      | some p =>
          match compileList compileRe rest with
          | none => none
          | some ps => some (p :: ps)

/-- The clause loop of compile_clause_patterns: clauses are processed in
order and the compiled locators are recorded under the clause identifier;
a compilation error in any clause propagates uncaught, so no partial
mapping is returned. -/
def compileClauses (compileRe : String → Option Pattern) :
    List Clause → Option (List (String × List Pattern))
  | [] => some []
  | c :: rest =>
      match compileList compileRe c.regex_locators with
      | none => none
      | some ps =>
          match compileClauses compileRe rest with
          | none => none
          | some m => some ((c.id, ps) :: m)

/-- compile_clause_patterns over the requirements structure. -/
def compile_clause_patterns (compileRe : String → Option Pattern)
    (requirements : Requirements) : Option (List (String × List Pattern)) :=
  compileClauses compileRe requirements.clauses

lemma compileList_none_iff (compileRe : String → Option Pattern) :
    ∀ rs : List String,
      compileList compileRe rs = none ↔ ∃ r ∈ rs, compileRe r = none
  | [] => by simp [compileList]
  | r :: rest => by
    rw [compileList]
    cases h : compileRe r with
    | none =>
      exact iff_of_true rfl ⟨r, List.mem_cons_self r rest, h⟩
    | some p =>
      cases hrec : compileList compileRe rest with
      | none =>
        obtain ⟨r2, hr2, hc⟩ := (compileList_none_iff compileRe rest).mp hrec
        exact iff_of_true rfl ⟨r2, List.mem_cons_of_mem r hr2, hc⟩
      | some ps =>
        refine iff_of_false (by simp) ?_
        rintro ⟨r2, hr2, hc⟩
        rcases List.mem_cons.mp hr2 with rfl | hmem
        · rw [h] at hc
          cases hc
        · have hnone : compileList compileRe rest = none :=
            (compileList_none_iff compileRe rest).mpr ⟨r2, hmem, hc⟩
          rw [hrec] at hnone
          cases hnone

lemma compileClauses_none_iff (compileRe : String → Option Pattern) :
    ∀ cs : List Clause,
      compileClauses compileRe cs = none
        ↔ ∃ c ∈ cs, compileList compileRe c.regex_locators = none
  | [] => by simp [compileClauses]
  | c :: rest => by
    rw [compileClauses]
    cases h : compileList compileRe c.regex_locators with
    | none =>
      exact iff_of_true rfl ⟨c, List.mem_cons_self c rest, h⟩
    | some ps =>
      cases hrec : compileClauses compileRe rest with
      | none =>
        obtain ⟨c2, hc2, hc⟩ := (compileClauses_none_iff compileRe rest).mp hrec
        exact iff_of_true rfl ⟨c2, List.mem_cons_of_mem c hc2, hc⟩
      | some m =>
        refine iff_of_false (by simp) ?_
        rintro ⟨c2, hc2, hcc⟩
        rcases List.mem_cons.mp hc2 with rfl | hmem
        · rw [h] at hcc
          cases hcc
        · have hnone : compileClauses compileRe rest = none :=
            (compileClauses_none_iff compileRe rest).mpr ⟨c2, hmem, hcc⟩
          rw [hrec] at hnone
          cases hnone

/-- C6: pattern compilation fails exactly when some clause holds a locator
string the regex compiler rejects; the failure propagates (the result is
none) and by the result type no partial pattern mapping can be returned
alongside it. -/
theorem retrieve_candidates.C6_compile_fails_iff
    (compileRe : String → Option Pattern) (requirements : Requirements) :
    compile_clause_patterns compileRe requirements = none
      ↔ ∃ c ∈ requirements.clauses, ∃ r ∈ c.regex_locators, compileRe r = none := by
  unfold compile_clause_patterns
  rw [compileClauses_none_iff]
  constructor
  · rintro ⟨c, hc, hnone⟩
    exact ⟨c, hc, (compileList_none_iff compileRe c.regex_locators).mp hnone⟩
  · rintro ⟨c, hc, r, hr, hnone⟩
    exact ⟨c, hc, (compileList_none_iff compileRe c.regex_locators).mpr ⟨r, hr, hnone⟩⟩

/-- One child chunk as read back from the child-chunks JSON. -/
structure Chunk where
  child_id : String
  parent_id : String
  doc : String
  text : Text

/-- One retrieval candidate: child identifier, chunk text, and the number
of locators that matched. -/
structure Candidate where
  child_id : String
  text : Text
  match_count : Nat

/-- The match-count loop: each regex contributes one to the count when its
search finds a match anywhere in the text, regardless of how many
occurrences exist. -/
def countMatches (regex_list : List Pattern) (text : Text) : Nat :=
  regex_list.foldl (fun n regex => if regex.search text then n + 1 else n) 0

/-- The candidate accumulation of offline_candidate_selection for one
clause: chunks are scanned in order and kept exactly when their match
count is positive. -/
def clause_candidates (child_chunks : List Chunk) (regex_list : List Pattern) :
    List Candidate :=
  child_chunks.filterMap (fun chunk =>
    if 0 < countMatches regex_list chunk.text then
      some ⟨chunk.child_id, chunk.text, countMatches regex_list chunk.text⟩
    else none)

/-- The ranking order of candidates.sort(key=match_count, reverse=True):
descending match count; the Python sort is stable, so candidates of equal
count keep their original order. -/
def candLE (a b : Candidate) : Prop := b.match_count ≤ a.match_count

instance : DecidableRel candLE := fun _ _ => Nat.decLe _ _

instance : IsTotal Candidate candLE where
  total a b := Nat.le_total b.match_count a.match_count

instance : IsTrans Candidate candLE where
  trans _ _ _ h1 h2 := Nat.le_trans h2 h1

/-- offline_candidate_selection: for each clause in order, the candidates
are collected, stably sorted by descending match count, and truncated to
the first top_k (50 at the CLI default). -/
def offline_candidate_selection (child_chunks : List Chunk)
    (patterns : List (String × List Pattern)) (top_k : Nat) :
    List (String × List Candidate) :=
  patterns.map (fun cp =>
    (cp.1, ((clause_candidates child_chunks cp.2).insertionSort candLE).take top_k))

/-- A list whose members are pairwise related in both orders is Pairwise. -/
lemma pairwise_of_forall_mem {α : Type} (R : α → α → Prop) :
    ∀ l : List α, (∀ a ∈ l, ∀ b ∈ l, R a b) → l.Pairwise R
  | [], _ => List.Pairwise.nil
  | x :: t, h =>
    List.Pairwise.cons
      (fun b hb => h x (List.mem_cons_self x t) b (List.mem_cons_of_mem x hb))
      (pairwise_of_forall_mem R t
        (fun a ha b hb =>
          h a (List.mem_cons_of_mem x ha) b (List.mem_cons_of_mem x hb)))

/-- Stability of the sort, phrased through filters: the candidates of any
fixed match count appear in the sorted list exactly in their original
order. -/
lemma filter_insertionSort_stable (cands : List Candidate) (c : Nat) :
    (cands.insertionSort candLE).filter (fun x => x.match_count == c)
      = cands.filter (fun x => x.match_count == c) := by
  have hpw : (cands.filter (fun x => x.match_count == c)).Pairwise candLE := by
    refine pairwise_of_forall_mem candLE _ ?_
    intro a ha b hb
    have ha2 : a.match_count = c := by simpa using (List.mem_filter.mp ha).2
    have hb2 : b.match_count = c := by simpa using (List.mem_filter.mp hb).2
    unfold candLE
    omega
  have hsub2 : List.Sublist (cands.filter (fun x => x.match_count == c))
      (cands.insertionSort candLE) :=
    List.sublist_insertionSort hpw (List.filter_sublist cands)
  have h4 : List.Sublist
      ((cands.filter (fun x => x.match_count == c)).filter
        (fun x => x.match_count == c))
      ((cands.insertionSort candLE).filter (fun x => x.match_count == c)) :=
    hsub2.filter _
  rw [List.filter_eq_self.mpr (fun a ha => (List.mem_filter.mp ha).2)] at h4
  have hlen : ((cands.insertionSort candLE).filter
        (fun x => x.match_count == c)).length
      = (cands.filter (fun x => x.match_count == c)).length :=
    (((List.perm_insertionSort candLE cands)).filter _).length_eq
  exact (h4.eq_of_length hlen.symm).symm

/-- The filter of a prefix is a prefix of the filter. -/
lemma filter_take_isPrefix {α : Type} (p : α → Bool) (l : List α) (k : Nat) :
    (l.take k).filter p <+: l.filter p := by
  refine ⟨(l.drop k).filter p, ?_⟩
  rw [← List.filter_append, List.take_append_drop]

/-- C2: for every clause of the pattern mapping, the selected candidate
list for that clause belongs to the result, is at most top_k long,
contains only candidates with positive match count, is ordered by
descending match count, and breaks ties by the original chunk order (its
restriction to any fixed match count is a prefix of the candidates of that
count in scan order). -/
theorem retrieve_candidates.C2_selection_ranked (child_chunks : List Chunk)
    (patterns : List (String × List Pattern)) (top_k : Nat)
    (cp : String × List Pattern) (hcp : cp ∈ patterns) :
    (cp.1, ((clause_candidates child_chunks cp.2).insertionSort candLE).take top_k)
        ∈ offline_candidate_selection child_chunks patterns top_k ∧
    (((clause_candidates child_chunks cp.2).insertionSort candLE).take top_k).length
        ≤ top_k ∧
    (∀ x ∈ ((clause_candidates child_chunks cp.2).insertionSort candLE).take top_k,
        0 < x.match_count) ∧
    (((clause_candidates child_chunks cp.2).insertionSort candLE).take
        top_k).Pairwise candLE ∧
    ∀ c : Nat,
      ((((clause_candidates child_chunks cp.2).insertionSort candLE).take
          top_k).filter (fun x => x.match_count == c))
        <+: ((clause_candidates child_chunks cp.2).filter
          (fun x => x.match_count == c)) := by
  refine ⟨List.mem_map.mpr ⟨cp, hcp, rfl⟩, List.length_take_le top_k _, ?_, ?_, ?_⟩
  · intro x hx
    have hx2 : x ∈ clause_candidates child_chunks cp.2 :=
      (List.mem_insertionSort candLE).mp (List.mem_of_mem_take hx)
    obtain ⟨chunk, _, heq⟩ := List.mem_filterMap.mp hx2
    by_cases h : 0 < countMatches cp.2 chunk.text
    · rw [if_pos h] at heq
      cases heq
      exact h
    · rw [if_neg h] at heq
      cases heq
  · exact (List.sorted_insertionSort candLE _).sublist (List.take_sublist _ _)
  · intro c
    have hpre := filter_take_isPrefix (fun x => x.match_count == c)
      ((clause_candidates child_chunks cp.2).insertionSort candLE) top_k
    rwa [filter_insertionSort_stable] at hpre

def c2chunk : Chunk := ⟨"c1", "p1", "d", ['m']⟩

def c2pat : Pattern := ⟨fun t => !t.isEmpty⟩

def c2cp : String × List Pattern := ("CL1", [c2pat])

/-- Witness for C2 at one chunk, one clause, one always-matching locator. -/
theorem retrieve_candidates.C2_selection_ranked_witness :
    (c2cp.1, ((clause_candidates [c2chunk] c2cp.2).insertionSort candLE).take 50)
        ∈ offline_candidate_selection [c2chunk] [c2cp] 50 ∧
    (((clause_candidates [c2chunk] c2cp.2).insertionSort candLE).take 50).length
        ≤ 50 ∧
    (∀ x ∈ ((clause_candidates [c2chunk] c2cp.2).insertionSort candLE).take 50,
        0 < x.match_count) ∧
    (((clause_candidates [c2chunk] c2cp.2).insertionSort candLE).take
        50).Pairwise candLE ∧
    ∀ c : Nat,
      ((((clause_candidates [c2chunk] c2cp.2).insertionSort candLE).take
          50).filter (fun x => x.match_count == c))
        <+: ((clause_candidates [c2chunk] c2cp.2).filter
          (fun x => x.match_count == c)) :=
  retrieve_candidates.C2_selection_ranked [c2chunk] [c2cp] 50 c2cp
    (List.mem_singleton_self c2cp)

/-- Witness for C3 at the empty parent text: zero child chunks and an
empty reconstruction. -/
theorem chunk_and_index.C3_child_roundtrip_witness :
    build_child_loop ([] : Text) 0 = [] ∧ deOverlap (build_child_loop ([] : Text) 0) = [] :=
  ⟨(chunk_and_index.C3_child_roundtrip []).2 rfl, (chunk_and_index.C3_child_roundtrip []).1⟩
